import Mathlib

/-!
Verification of the `LRUCache` class template of `src/LRUCache.h` (and of the
counter-free variant of the same class in `src/unnamed/part_000`).

Modelling conventions.
The C++ class keeps a `std::list<std::pair<TKey, TValue>>` (the recency
`container`, front = most recently used) and a
`std::unordered_map<TKey, iterator>` (`lookupMap`) whose values are iterators
— stable node references — into the container.  The embedding represents the
container as a `List (K × V)` with the list head as the front, and represents
`lookupMap` by its key list: since every public operation keeps each key in at
most one container node (proved below as an invariant), the node a key's
locator designates is exactly the unique container entry carrying that key, so
dereferencing the locator stored for `key` is modelled by `findEntry` (first
entry whose key equals `key`), and `container.erase(lookupMap[key])` by
`eraseKeyC` (drop that entry).

Undefined behaviour in the C++ is modelled by `none`:
  * `container.back()` / `container.pop_back()` on an empty list (reachable in
    `put` when the capacity is `0`), and
  * dereferencing / erasing through a locator whose key has no live container
    node (unreachable from well-formed states, as proved below).
All operations that can reach undefined behaviour therefore return an
`Option`; `none` means "the C++ call has no defined result".
-/

namespace LRUSpec

/-- Key membership test on the modelled index, i.e.
`lookupMap.find(key) != lookupMap.end()` on the `std::unordered_map`. -/
def containsKey {K : Type} [DecidableEq K] : List K → K → Bool
  | [], _ => false
  | x :: rest, key => if x = key then true else containsKey rest key

/-- `lookupMap.erase(key)`: remove the (at most one, in well-formed states)
occurrence of `key` from the modelled index. -/
def eraseKeyL {K : Type} [DecidableEq K] : List K → K → List K
  | [], _ => []
  | x :: rest, key => if x = key then rest else x :: eraseKeyL rest key

/-- Dereference the locator stored for `key`: the container node the index
designates for `key`, i.e. the first (in well-formed states: only) entry whose
key equals `key`. -/
def findEntry {K V : Type} [DecidableEq K] : List (K × V) → K → Option (K × V)
  | [], _ => none
  | e :: rest, key => if e.1 = key then some e else findEntry rest key

/-- `container.erase(it)` where `it` is the locator stored for `key`: drop the
container node designated for `key`. -/
def eraseKeyC {K V : Type} [DecidableEq K] : List (K × V) → K → List (K × V)
  | [], _ => []
  | e :: rest, key => if e.1 = key then rest else e :: eraseKeyC rest key

/-- `container.back()`: last element of the recency list (`none` on the empty
list, where the C++ call is undefined behaviour). -/
def backE {A : Type} : List A → Option A
  | [] => none
  | [a] => some a
  | _ :: b :: rest => backE (b :: rest)

/-- `container.pop_back()`: the recency list with its last element removed
(identity on the empty list, where the C++ call is undefined behaviour;
`put` only uses it after `backE` succeeded). -/
def popBack {A : Type} : List A → List A
  | [] => []
  | [_] => []
  | a :: b :: rest => a :: popBack (b :: rest)

/-- The key projection of a container: `{entry.key for entry in recency_list}`
in order. -/
def keysOf {K V : Type} (c : List (K × V)) : List K := c.map Prod.fst

/-- The `LRUCache` class state of `src/LRUCache.h`: capacity, recency
container (head = front = most recently used), index key list, and the four
statistics counters. -/
structure LRUCache (K V : Type) where
  max_size_ : Nat
  container : List (K × V)
  lookupMap : List K
  cache_hits_ : Nat
  cache_misses_ : Nat
  update_count_ : Nat
  bounce_count_ : Nat

/-- The constructor `LRUCache(size)`: empty cache, all counters zero. -/
def LRUCache.init (K V : Type) (size : Nat) : LRUCache K V :=
  { max_size_ := size,
    container := [],
    lookupMap := [],
    cache_hits_ := 0,
    cache_misses_ := 0,
    update_count_ := 0,
    bounce_count_ := 0 }

/-- `get(key)`.  Returns the updated cache state together with the returned
iterator, modelled as `some entry` (the entry `container.begin()` designates
after the promotion) or `none` for the `end()` sentinel.  The outer `Option`
is `none` exactly when the C++ runs into undefined behaviour (dereferencing a
locator with no live node — unreachable from well-formed states). -/
def LRUCache.get {K V : Type} [DecidableEq K] (s : LRUCache K V) (key : K) :
    Option (LRUCache K V × Option (K × V)) :=
  if containsKey s.lookupMap key then
    -- found: `existing = *itrLookup->second`, erase the old node, push the
    -- saved pair at the front, re-point the locator, return `begin()`
    match findEntry s.container key with
    | none => none
    | some existing =>
        some ({ s with
                  cache_hits_ := s.cache_hits_ + 1,
                  container := existing :: eraseKeyC s.container key },
              some existing)
  else
    -- not found: count the miss and return `end()`
    some ({ s with cache_misses_ := s.cache_misses_ + 1 }, none)

/-- `peek(key)` (a `const` member): the entry the stored locator designates,
or `none` for `end()`.  No state change is possible. -/
def LRUCache.peek {K V : Type} [DecidableEq K] (s : LRUCache K V) (key : K) :
    Option (K × V) :=
  if containsKey s.lookupMap key then findEntry s.container key else none

/-- `put(key, value)`.  `none` exactly when the C++ runs into undefined
behaviour: `back()`/`pop_back()` on an empty container (capacity `0`), or
erasing through a locator with no live node. -/
def LRUCache.put {K V : Type} [DecidableEq K] (s : LRUCache K V) (key : K)
    (value : V) : Option (LRUCache K V) :=
  if containsKey s.lookupMap key then
    -- key exists: count the update, erase the old node, push the new pair
    -- at the front, re-point the locator
    match findEntry s.container key with
    | none => none
    | some _ =>
        some { s with
                 update_count_ := s.update_count_ + 1,
                 container := (key, value) :: eraseKeyC s.container key }
  else
    -- key absent: evict the back entry when already full, then push the new
    -- pair at the front and insert its key into the index
    if s.container.length = s.max_size_ then
      match backE s.container with
      | none => none
      | some bk =>
          some { s with
                   bounce_count_ := s.bounce_count_ + 1,
                   container := (key, value) :: popBack s.container,
                   lookupMap := key :: eraseKeyL s.lookupMap bk.1 }
    else
      some { s with
               container := (key, value) :: s.container,
               lookupMap := key :: s.lookupMap }

/-- `size()`: `container.size()`. -/
def LRUCache.size {K V : Type} (s : LRUCache K V) : Nat := s.container.length

/-- `max_size()`. -/
def LRUCache.max_size {K V : Type} (s : LRUCache K V) : Nat := s.max_size_

/-- `front()`: first entry of the recency list (`none` on the empty list,
where the C++ call is undefined behaviour). -/
def LRUCache.front {K V : Type} (s : LRUCache K V) : Option (K × V) :=
  s.container.head?

/-- `back()`: last entry of the recency list (`none` on the empty list). -/
def LRUCache.back {K V : Type} (s : LRUCache K V) : Option (K × V) :=
  backE s.container

/-- `empty()`. -/
def LRUCache.empty {K V : Type} (s : LRUCache K V) : Bool :=
  s.container.isEmpty

/-- `clear()`: empty both the container and the index; capacity and the four
counters are untouched. -/
def LRUCache.clear {K V : Type} (s : LRUCache K V) : LRUCache K V :=
  { s with container := [], lookupMap := [] }

/-- `is_cached(key)`: key membership in the index. -/
def LRUCache.is_cached {K V : Type} [DecidableEq K] (s : LRUCache K V)
    (key : K) : Bool :=
  containsKey s.lookupMap key

/-- A public operation of the cache. -/
inductive Op (K V : Type) where
  | get : K → Op K V
  | put : K → V → Op K V
  | peek : K → Op K V
  | is_cached : K → Op K V
  | clear : Op K V

/-- The observable result of one public operation. -/
inductive Out (K V : Type) where
  | entry : Option (K × V) → Out K V
  | flag : Bool → Out K V
  | unit : Out K V

/-- One public operation on the full (counter-carrying) cache: resulting
state and observable result; `none` on undefined behaviour. -/
def stepO {K V : Type} [DecidableEq K] (s : LRUCache K V) :
    Op K V → Option (LRUCache K V × Out K V)
  | Op.get k => (s.get k).map (fun p => (p.1, Out.entry p.2))
  | Op.put k v => (s.put k v).map (fun t => (t, Out.unit))
  | Op.peek k => some (s, Out.entry (s.peek k))
  | Op.is_cached k => some (s, Out.flag (s.is_cached k))
  | Op.clear => some (s.clear, Out.unit)

/-- Run a sequence of public operations, keeping only the final state. -/
def run {K V : Type} [DecidableEq K] (s : LRUCache K V) :
    List (Op K V) → Option (LRUCache K V)
  | [] => some s
  | op :: rest =>
      match stepO s op with
      | none => none
      | some p => run p.1 rest

/-- Run a sequence of public operations, collecting every observable result. -/
def runOuts {K V : Type} [DecidableEq K] (s : LRUCache K V) :
    List (Op K V) → Option (LRUCache K V × List (Out K V))
  | [] => some (s, [])
  | op :: rest =>
      match stepO s op with
      | none => none
      | some p => (runOuts p.1 rest).map (fun q => (q.1, p.2 :: q.2))

/-- The list of `put` operations corresponding to a list of (key, value)
pairs, in order. -/
def putsOf {K V : Type} (kvs : List (K × V)) : List (Op K V) :=
  kvs.map (fun kv => Op.put kv.1 kv.2)

/-- The `LRUCache` class state of `src/unnamed/part_000`: the same class
without the statistics counters. -/
structure LRUCache0 (K V : Type) where
  max_size_ : Nat
  container : List (K × V)
  lookupMap : List K

/-- The `src/unnamed/part_000` constructor `LRUCache(size)`. -/
def LRUCache0.init (K V : Type) (size : Nat) : LRUCache0 K V :=
  { max_size_ := size, container := [], lookupMap := [] }

/-- `get(key)` of `src/unnamed/part_000` (no counters). -/
def LRUCache0.get {K V : Type} [DecidableEq K] (s : LRUCache0 K V) (key : K) :
    Option (LRUCache0 K V × Option (K × V)) :=
  if containsKey s.lookupMap key then
    match findEntry s.container key with
    | none => none
    | some existing =>
        some ({ s with container := existing :: eraseKeyC s.container key },
              some existing)
  else
    some (s, none)

/-- `peek(key)` of `src/unnamed/part_000`. -/
def LRUCache0.peek {K V : Type} [DecidableEq K] (s : LRUCache0 K V) (key : K) :
    Option (K × V) :=
  if containsKey s.lookupMap key then findEntry s.container key else none

/-- `put(key, value)` of `src/unnamed/part_000` (no counters). -/
def LRUCache0.put {K V : Type} [DecidableEq K] (s : LRUCache0 K V) (key : K)
    (value : V) : Option (LRUCache0 K V) :=
  if containsKey s.lookupMap key then
    match findEntry s.container key with
    | none => none
    | some _ =>
        some { s with container := (key, value) :: eraseKeyC s.container key }
  else
    if s.container.length = s.max_size_ then
      match backE s.container with
      | none => none
      | some bk =>
          some { s with
                   container := (key, value) :: popBack s.container,
                   lookupMap := key :: eraseKeyL s.lookupMap bk.1 }
    else
      some { s with
               container := (key, value) :: s.container,
               lookupMap := key :: s.lookupMap }

/-- `clear()` of `src/unnamed/part_000`. -/
def LRUCache0.clear {K V : Type} (s : LRUCache0 K V) : LRUCache0 K V :=
  { s with container := [], lookupMap := [] }

/-- `is_cached(key)` of `src/unnamed/part_000`. -/
def LRUCache0.is_cached {K V : Type} [DecidableEq K] (s : LRUCache0 K V)
    (key : K) : Bool :=
  containsKey s.lookupMap key

/-- One public operation on the counter-free cache of
`src/unnamed/part_000`. -/
def stepO0 {K V : Type} [DecidableEq K] (s : LRUCache0 K V) :
    Op K V → Option (LRUCache0 K V × Out K V)
  | Op.get k => (s.get k).map (fun p => (p.1, Out.entry p.2))
  | Op.put k v => (s.put k v).map (fun t => (t, Out.unit))
  | Op.peek k => some (s, Out.entry (s.peek k))
  | Op.is_cached k => some (s, Out.flag (s.is_cached k))
  | Op.clear => some (s.clear, Out.unit)

/-- Run a sequence of public operations on the counter-free cache,
collecting every observable result. -/
def runOuts0 {K V : Type} [DecidableEq K] (s : LRUCache0 K V) :
    List (Op K V) → Option (LRUCache0 K V × List (Out K V))
  | [] => some (s, [])
  | op :: rest =>
      match stepO0 s op with
      | none => none
      | some p => (runOuts0 p.1 rest).map (fun q => (q.1, p.2 :: q.2))

/-- The counter-free projection of a counter-carrying cache state. -/
def proj {K V : Type} (s : LRUCache K V) : LRUCache0 K V :=
  { max_size_ := s.max_size_,
    container := s.container,
    lookupMap := s.lookupMap }

/-- Mutual consistency of index and recency list: the index holds exactly the
keys of the live container entries. -/
def Consistent {K V : Type} (s : LRUCache K V) : Prop :=
  ∀ k, k ∈ s.lookupMap ↔ k ∈ keysOf s.container

/-- The well-formedness invariant of a cache state: index/list consistency,
no duplicate keys in the container, no duplicate keys in the index, and the
container within capacity. -/
def Inv {K V : Type} (s : LRUCache K V) : Prop :=
  Consistent s ∧ (keysOf s.container).Nodup ∧ s.lookupMap.Nodup ∧
    s.container.length ≤ s.max_size_

section KeyLemmas

variable {K V : Type}

@[simp] theorem keysOf_nil : keysOf ([] : List (K × V)) = [] := rfl

@[simp] theorem keysOf_cons (e : K × V) (c : List (K × V)) :
    keysOf (e :: c) = e.1 :: keysOf c := rfl

@[simp] theorem keysOf_append (c d : List (K × V)) :
    keysOf (c ++ d) = keysOf c ++ keysOf d := List.map_append _ _ _

@[simp] theorem keysOf_reverse (c : List (K × V)) :
    keysOf c.reverse = (keysOf c).reverse := List.map_reverse _ _

theorem mem_keysOf_of_mem {e : K × V} {c : List (K × V)} (h : e ∈ c) :
    e.1 ∈ keysOf c := List.mem_map_of_mem Prod.fst h

end KeyLemmas

section ListLemmas

variable {K V A : Type} [DecidableEq K]

theorem containsKey_iff (l : List K) (k : K) : containsKey l k = true ↔ k ∈ l := by
  induction l with
  | nil => simp [containsKey]
  | cons x rest ih =>
      by_cases h : x = k
      · simp [containsKey, h]
      · have h2 : ¬ k = x := fun hh => h hh.symm
        simp [containsKey, h, ih, h2]

theorem containsKey_eq_false_iff (l : List K) (k : K) :
    containsKey l k = false ↔ k ∉ l := by
  rw [← containsKey_iff]
  simp

theorem mem_of_mem_eraseKeyL {l : List K} {x k : K} (h : x ∈ eraseKeyL l k) :
    x ∈ l := by
  induction l with
  | nil => simpa [eraseKeyL] using h
  | cons y rest ih =>
      by_cases hy : y = k
      · simp only [eraseKeyL, if_pos hy] at h
        exact List.mem_cons_of_mem _ h
      · simp only [eraseKeyL, if_neg hy, List.mem_cons] at h
        rcases h with h | h
        · simp [h]
        · exact List.mem_cons_of_mem _ (ih h)

theorem nodup_eraseKeyL {l : List K} (h : l.Nodup) (k : K) :
    (eraseKeyL l k).Nodup := by
  induction l with
  | nil => simp [eraseKeyL]
  | cons y rest ih =>
      rcases List.nodup_cons.mp h with ⟨hy, hrest⟩
      by_cases hk : y = k
      · simpa [eraseKeyL, hk] using hrest
      · rw [show eraseKeyL (y :: rest) k = y :: eraseKeyL rest k from by
          simp [eraseKeyL, hk]]
        exact List.nodup_cons.mpr
          ⟨fun hmem => hy (mem_of_mem_eraseKeyL hmem), ih hrest⟩

theorem mem_eraseKeyL_iff {l : List K} (h : l.Nodup) (x k : K) :
    x ∈ eraseKeyL l k ↔ x ∈ l ∧ x ≠ k := by
  induction l with
  | nil => simp [eraseKeyL]
  | cons y rest ih =>
      rcases List.nodup_cons.mp h with ⟨hy, hrest⟩
      by_cases hk : y = k
      · subst hk
        have he : eraseKeyL (y :: rest) y = rest := by simp [eraseKeyL]
        rw [he]
        constructor
        · intro hx
          exact ⟨List.mem_cons_of_mem _ hx, fun hek => hy (hek ▸ hx)⟩
        · rintro ⟨hx, hne⟩
          rcases List.mem_cons.mp hx with h1 | h1
          · exact absurd h1 hne
          · exact h1
      · have he : eraseKeyL (y :: rest) k = y :: eraseKeyL rest k := by
          simp [eraseKeyL, hk]
        rw [he]
        constructor
        · intro hx
          rcases List.mem_cons.mp hx with h1 | h1
          · exact ⟨by simp [h1], by rw [h1]; exact hk⟩
          · rcases (ih hrest).mp h1 with ⟨h2, h3⟩
            exact ⟨List.mem_cons_of_mem _ h2, h3⟩
        · rintro ⟨hx, hne⟩
          rcases List.mem_cons.mp hx with h1 | h1
          · rw [h1]; exact List.mem_cons_self _ _
          · exact List.mem_cons_of_mem _ ((ih hrest).mpr ⟨h1, hne⟩)

theorem eraseKeyL_concat {l : List K} {k : K} (h : k ∉ l) :
    eraseKeyL (l ++ [k]) k = l := by
  induction l with
  | nil => simp [eraseKeyL]
  | cons y rest ih =>
      have hy : y ≠ k := fun he => h (by rw [he]; exact List.mem_cons_self _ _)
      have hrest : k ∉ rest := fun hm => h (List.mem_cons_of_mem _ hm)
      simp [eraseKeyL, hy, ih hrest]

theorem findEntry_eq_none_iff (c : List (K × V)) (k : K) :
    findEntry c k = none ↔ k ∉ keysOf c := by
  induction c with
  | nil => simp [findEntry]
  | cons e rest ih =>
      by_cases he : e.1 = k
      · simp [findEntry, he]
      · have he2 : ¬ k = e.1 := fun hh => he hh.symm
        simp [findEntry, he, he2, ih]

theorem findEntry_eq_some_key {c : List (K × V)} {k : K} {e : K × V}
    (h : findEntry c k = some e) : e.1 = k ∧ e ∈ c := by
  induction c with
  | nil => simp [findEntry] at h
  | cons f rest ih =>
      by_cases hf : f.1 = k
      · simp only [findEntry, if_pos hf, Option.some.injEq] at h
        exact ⟨h ▸ hf, by rw [← h]; exact List.mem_cons_self _ _⟩
      · simp only [findEntry, if_neg hf] at h
        rcases ih h with ⟨h1, h2⟩
        exact ⟨h1, List.mem_cons_of_mem _ h2⟩

theorem findEntry_of_mem_keys {c : List (K × V)} {k : K} (h : k ∈ keysOf c) :
    ∃ v, findEntry c k = some (k, v) ∧ (k, v) ∈ c := by
  cases hf : findEntry c k with
  | none => exact absurd h ((findEntry_eq_none_iff c k).mp hf)
  | some e =>
      obtain ⟨a, b⟩ := e
      rcases findEntry_eq_some_key hf with ⟨h1, h2⟩
      have h1' : a = k := h1
      subst h1'
      exact ⟨b, rfl, h2⟩

theorem findEntry_eq_of_nodup {c : List (K × V)} {k : K} {v : V}
    (hnd : (keysOf c).Nodup) (h : (k, v) ∈ c) :
    findEntry c k = some (k, v) := by
  induction c with
  | nil => simp at h
  | cons f rest ih =>
      rcases List.mem_cons.mp h with h1 | h1
      · simp [findEntry, ← h1]
      · have hrest : (keysOf rest).Nodup :=
          (List.nodup_cons.mp (by simpa using hnd)).2
        have hf : f.1 ≠ k := by
          intro he
          have hk : k ∈ keysOf rest := mem_keysOf_of_mem h1
          exact (List.nodup_cons.mp (by simpa using hnd)).1 (he ▸ hk)
        simp [findEntry, hf, ih hrest h1]

theorem keysOf_eraseKeyC (c : List (K × V)) (k : K) :
    keysOf (eraseKeyC c k) = eraseKeyL (keysOf c) k := by
  induction c with
  | nil => rfl
  | cons e rest ih =>
      by_cases he : e.1 = k
      · simp [keysOf, eraseKeyC, eraseKeyL, he]
      · simp [keysOf, eraseKeyC, eraseKeyL, he] at ih ⊢
        exact ih

theorem length_eraseKeyC {c : List (K × V)} {k : K} (h : k ∈ keysOf c) :
    (eraseKeyC c k).length + 1 = c.length := by
  induction c with
  | nil => simp at h
  | cons e rest ih =>
      by_cases he : e.1 = k
      · simp [eraseKeyC, he]
      · have h2 : k ∈ keysOf rest := by
          rcases List.mem_cons.mp (by simpa using h) with h1 | h1
          · exact absurd h1.symm he
          · exact h1
        have h3 := ih h2
        simp only [eraseKeyC, if_neg he, List.length_cons]
        omega

end ListLemmas

section BackLemmas

variable {A : Type}

theorem backE_concat (l : List A) (a : A) : backE (l ++ [a]) = some a := by
  induction l with
  | nil => rfl
  | cons x l ih =>
      cases l with
      | nil => rfl
      | cons y l' => simpa [backE] using ih

theorem popBack_concat (l : List A) (a : A) : popBack (l ++ [a]) = l := by
  induction l with
  | nil => rfl
  | cons x l ih =>
      cases l with
      | nil => rfl
      | cons y l' =>
          have h := ih
          simp [popBack] at h ⊢
          exact h

theorem backE_some_concat {l : List A} {a : A} (h : backE l = some a) :
    l = popBack l ++ [a] := by
  induction l with
  | nil => simp [backE] at h
  | cons x l ih =>
      cases l with
      | nil =>
          simp only [backE, Option.some.injEq] at h
          simp [popBack, h]
      | cons y l' =>
          have h' : backE (y :: l') = some a := by simpa [backE] using h
          have h2 := ih h'
          conv_lhs => rw [h2]
          simp [popBack]

theorem backE_of_ne_nil {l : List A} (h : l ≠ []) : ∃ a, backE l = some a := by
  induction l with
  | nil => exact absurd rfl h
  | cons x l ih =>
      cases l with
      | nil => exact ⟨x, rfl⟩
      | cons y l' =>
          rcases ih (by simp) with ⟨a, ha⟩
          exact ⟨a, by simpa [backE] using ha⟩

end BackLemmas

section OpLemmas

variable {K V : Type} [DecidableEq K]

/-- `get` on an absent key: only the miss counter moves. -/
theorem get_miss (s : LRUCache K V) (k : K) (h : k ∉ s.lookupMap) :
    s.get k = some ({ s with cache_misses_ := s.cache_misses_ + 1 }, none) := by
  have hc : containsKey s.lookupMap k = false :=
    (containsKey_eq_false_iff _ _).mpr h
  simp [LRUCache.get, hc]

/-- `get` on a present key: hit counter moves, the entry is promoted to the
front, the index key list is untouched, and the promoted entry is returned. -/
theorem get_hit (s : LRUCache K V) (k : K) (v : V)
    (hC : Consistent s) (hnd : (keysOf s.container).Nodup)
    (hmem : (k, v) ∈ s.container) :
    s.get k = some ({ s with
                        cache_hits_ := s.cache_hits_ + 1,
                        container := (k, v) :: eraseKeyC s.container k },
                    some (k, v)) := by
  have hk : k ∈ keysOf s.container := mem_keysOf_of_mem hmem
  have hc : containsKey s.lookupMap k = true :=
    (containsKey_iff _ _).mpr ((hC k).mpr hk)
  have hf : findEntry s.container k = some (k, v) :=
    findEntry_eq_of_nodup hnd hmem
  simp [LRUCache.get, hc, hf]

/-- `put` on a present key: update counter moves, the entry is replaced and
promoted, no eviction. -/
theorem put_update (s : LRUCache K V) (k : K) (v0 v : V)
    (hC : Consistent s) (hnd : (keysOf s.container).Nodup)
    (hmem : (k, v0) ∈ s.container) :
    s.put k v = some { s with
                         update_count_ := s.update_count_ + 1,
                         container := (k, v) :: eraseKeyC s.container k } := by
  have hk : k ∈ keysOf s.container := mem_keysOf_of_mem hmem
  have hc : containsKey s.lookupMap k = true :=
    (containsKey_iff _ _).mpr ((hC k).mpr hk)
  have hf : findEntry s.container k = some (k, v0) :=
    findEntry_eq_of_nodup hnd hmem
  simp [LRUCache.put, hc, hf]

/-- `put` on an absent key below capacity: plain front insertion. -/
theorem put_insert (s : LRUCache K V) (k : K) (v : V)
    (h : k ∉ s.lookupMap) (hlen : s.container.length ≠ s.max_size_) :
    s.put k v = some { s with
                         container := (k, v) :: s.container,
                         lookupMap := k :: s.lookupMap } := by
  have hc : containsKey s.lookupMap k = false :=
    (containsKey_eq_false_iff _ _).mpr h
  simp [LRUCache.put, hc, hlen]

/-- `put` on an absent key at capacity: the back entry is evicted from both
structures, the bounce counter moves, and the new entry goes to the front. -/
theorem put_evict (s : LRUCache K V) (k : K) (v : V) (bk : K × V)
    (h : k ∉ s.lookupMap) (hlen : s.container.length = s.max_size_)
    (hbk : backE s.container = some bk) :
    s.put k v = some { s with
                         bounce_count_ := s.bounce_count_ + 1,
                         container := (k, v) :: popBack s.container,
                         lookupMap := k :: eraseKeyL s.lookupMap bk.1 } := by
  have hc : containsKey s.lookupMap k = false :=
    (containsKey_eq_false_iff _ _).mpr h
  simp [LRUCache.put, hc, hlen, hbk]

/-- Promoting the (unique) entry of a present key to the front preserves the
key-set, key uniqueness, and the container length. -/
theorem inv_promote (s : LRUCache K V) (k : K) (v : V)
    (hC : Consistent s) (hnd : (keysOf s.container).Nodup)
    (hk : k ∈ keysOf s.container) :
    (∀ x, x ∈ s.lookupMap ↔ x ∈ keysOf ((k, v) :: eraseKeyC s.container k))
      ∧ (keysOf ((k, v) :: eraseKeyC s.container k)).Nodup
      ∧ ((k, v) :: eraseKeyC s.container k).length = s.container.length := by
  have hkeys : keysOf ((k, v) :: eraseKeyC s.container k)
      = k :: eraseKeyL (keysOf s.container) k := by
    simp [keysOf_eraseKeyC]
  refine ⟨?_, ?_, ?_⟩
  · intro x
    rw [hC x, hkeys]
    by_cases hx : x = k
    · subst hx
      simp [hk]
    · rw [List.mem_cons]
      constructor
      · intro hmem
        exact Or.inr ((mem_eraseKeyL_iff hnd x k).mpr ⟨hmem, hx⟩)
      · rintro (h1 | h1)
        · exact absurd h1 hx
        · exact ((mem_eraseKeyL_iff hnd x k).mp h1).1
  · rw [hkeys]
    exact List.nodup_cons.mpr
      ⟨fun hm => (((mem_eraseKeyL_iff hnd k k).mp hm).2) rfl,
       nodup_eraseKeyL hnd k⟩
  · have h2 := length_eraseKeyC (c := s.container) (k := k) hk
    simp only [List.length_cons]
    omega

/-- One defined public operation preserves the invariant and the capacity. -/
theorem inv_step {s : LRUCache K V} {op : Op K V} {p : LRUCache K V × Out K V}
    (h : stepO s op = some p) (hInv : Inv s) :
    Inv p.1 ∧ p.1.max_size_ = s.max_size_ := by
  obtain ⟨hC, hnd, hm, hlen⟩ := hInv
  cases op with
  | get k =>
      by_cases hk : k ∈ s.lookupMap
      · have hkc : k ∈ keysOf s.container := (hC k).mp hk
        rcases findEntry_of_mem_keys hkc with ⟨v, hf, hmem⟩
        rcases inv_promote s k v hC hnd hkc with ⟨p1, p2, p3⟩
        rw [stepO, get_hit s k v hC hnd hmem] at h
        simp only [Option.map_some', Option.some.injEq] at h
        subst h
        exact ⟨⟨p1, p2, hm, by simpa [p3] using hlen⟩, rfl⟩
      · rw [stepO, get_miss s k hk] at h
        simp only [Option.map_some', Option.some.injEq] at h
        subst h
        exact ⟨⟨hC, hnd, hm, hlen⟩, rfl⟩
  | put k v =>
      by_cases hk : k ∈ s.lookupMap
      · have hkc : k ∈ keysOf s.container := (hC k).mp hk
        rcases findEntry_of_mem_keys hkc with ⟨v0, hf, hmem⟩
        rcases inv_promote s k v hC hnd hkc with ⟨p1, p2, p3⟩
        rw [stepO, put_update s k v0 v hC hnd hmem] at h
        simp only [Option.map_some', Option.some.injEq] at h
        subst h
        exact ⟨⟨p1, p2, hm, by simpa [p3] using hlen⟩, rfl⟩
      · have hknotc : k ∉ keysOf s.container := fun hh => hk ((hC k).mpr hh)
        by_cases hfull : s.container.length = s.max_size_
        · cases hbk : backE s.container with
          | none =>
              rw [stepO] at h
              have : s.put k v = none := by
                have hc : containsKey s.lookupMap k = false :=
                  (containsKey_eq_false_iff _ _).mpr hk
                simp [LRUCache.put, hc, hfull, hbk]
              rw [this] at h
              cases h
          | some bk =>
              rw [stepO, put_evict s k v bk hk hfull hbk] at h
              simp only [Option.map_some', Option.some.injEq] at h
              subst h
              have hconcat := backE_some_concat hbk
              have hkeysc : keysOf s.container
                  = keysOf (popBack s.container) ++ [bk.1] := by
                conv_lhs => rw [hconcat]
                simp
              have hndl : (keysOf (popBack s.container)).Nodup ∧
                  bk.1 ∉ keysOf (popBack s.container) := by
                rw [hkeysc] at hnd
                rcases List.nodup_append.mp hnd with ⟨hn1, _, hdisj⟩
                exact ⟨hn1, fun hmem => hdisj hmem (by simp)⟩
              have hkl : k ∉ keysOf (popBack s.container) := fun hmem =>
                hknotc (by rw [hkeysc]; exact List.mem_append_left _ hmem)
              refine ⟨⟨?_, ?_, ?_, ?_⟩, rfl⟩
              · intro x
                simp only [keysOf_cons, List.mem_cons]
                by_cases hx : x = k
                · subst hx
                  simp
                · simp only [hx, false_or]
                  rw [mem_eraseKeyL_iff hm x bk.1, hC x, hkeysc]
                  simp only [List.mem_append, List.mem_singleton]
                  constructor
                  · rintro ⟨h1 | h1, h2⟩
                    · exact h1
                    · exact absurd h1 h2
                  · intro h1
                    exact ⟨Or.inl h1, fun h2 => hndl.2 (h2 ▸ h1)⟩
              · simp only [keysOf_cons]
                exact List.nodup_cons.mpr ⟨hkl, hndl.1⟩
              · exact List.nodup_cons.mpr
                  ⟨fun hmem => hk (mem_of_mem_eraseKeyL hmem),
                   nodup_eraseKeyL hm bk.1⟩
              · have : s.container.length = (popBack s.container).length + 1 := by
                  conv_lhs => rw [hconcat]
                  simp
                simp only [List.length_cons]
                omega
        · rw [stepO, put_insert s k v hk hfull] at h
          simp only [Option.map_some', Option.some.injEq] at h
          subst h
          refine ⟨⟨?_, ?_, ?_, ?_⟩, rfl⟩
          · intro x
            simp only [keysOf_cons, List.mem_cons]
            rw [hC x]
          · exact List.nodup_cons.mpr ⟨hknotc, hnd⟩
          · exact List.nodup_cons.mpr ⟨hk, hm⟩
          · simp only [List.length_cons]
            omega
  | peek k =>
      rw [stepO] at h
      simp only [Option.some.injEq] at h
      subst h
      exact ⟨⟨hC, hnd, hm, hlen⟩, rfl⟩
  | is_cached k =>
      rw [stepO] at h
      simp only [Option.some.injEq] at h
      subst h
      exact ⟨⟨hC, hnd, hm, hlen⟩, rfl⟩
  | clear =>
      rw [stepO] at h
      simp only [Option.some.injEq] at h
      subst h
      refine ⟨⟨?_, ?_, ?_, ?_⟩, rfl⟩ <;>
        simp [LRUCache.clear, Consistent, keysOf]

/-- With a positive capacity, every public operation is defined on a
well-formed state (no undefined behaviour is reachable). -/
theorem step_some {s : LRUCache K V} (hInv : Inv s) (hcap : 1 ≤ s.max_size_)
    (op : Op K V) : ∃ p, stepO s op = some p := by
  obtain ⟨hC, hnd, hm, hlen⟩ := hInv
  cases op with
  | get k =>
      by_cases hk : k ∈ s.lookupMap
      · rcases findEntry_of_mem_keys ((hC k).mp hk) with ⟨v, hf, hmem⟩
        exact ⟨_, by rw [stepO, get_hit s k v hC hnd hmem]; rfl⟩
      · exact ⟨_, by rw [stepO, get_miss s k hk]; rfl⟩
  | put k v =>
      by_cases hk : k ∈ s.lookupMap
      · rcases findEntry_of_mem_keys ((hC k).mp hk) with ⟨v0, hf, hmem⟩
        exact ⟨_, by rw [stepO, put_update s k v0 v hC hnd hmem]; rfl⟩
      · by_cases hfull : s.container.length = s.max_size_
        · have hne : s.container ≠ [] := by
            intro he
            rw [he] at hfull
            simp at hfull
            omega
          rcases backE_of_ne_nil hne with ⟨bk, hbk⟩
          exact ⟨_, by rw [stepO, put_evict s k v bk hk hfull hbk]; rfl⟩
        · exact ⟨_, by rw [stepO, put_insert s k v hk hfull]; rfl⟩
  | peek k => exact ⟨_, rfl⟩
  | is_cached k => exact ⟨_, rfl⟩
  | clear => exact ⟨_, rfl⟩

/-- The invariant holds initially. -/
theorem inv_init (K V : Type) [DecidableEq K] (cap : Nat) :
    Inv (LRUCache.init K V cap) := by
  refine ⟨fun k => ?_, ?_, ?_, ?_⟩ <;> simp [LRUCache.init, keysOf]

/-- Defined runs preserve the invariant and the capacity. -/
theorem run_inv : ∀ (ops : List (Op K V)) (s t : LRUCache K V),
    run s ops = some t → Inv s → Inv t ∧ t.max_size_ = s.max_size_ := by
  intro ops
  induction ops with
  | nil =>
      intro s t h hs
      simp [run] at h
      subst h
      exact ⟨hs, rfl⟩
  | cons op rest ih =>
      intro s t h hs
      rw [run] at h
      cases hst : stepO s op with
      | none => rw [hst] at h; cases h
      | some p =>
          rw [hst] at h
          rcases inv_step hst hs with ⟨hp, hmax⟩
          rcases ih p.1 t h hp with ⟨ht, hmax2⟩
          exact ⟨ht, by rw [hmax2, hmax]⟩

/-- With a positive capacity, every run is defined, preserves the invariant,
and keeps the capacity. -/
theorem run_some : ∀ (ops : List (Op K V)) (s : LRUCache K V), Inv s →
    1 ≤ s.max_size_ →
    ∃ t, run s ops = some t ∧ Inv t ∧ t.max_size_ = s.max_size_ := by
  intro ops
  induction ops with
  | nil =>
      intro s hs _
      exact ⟨s, rfl, hs, rfl⟩
  | cons op rest ih =>
      intro s hs hc
      rcases step_some hs hc op with ⟨p, hp⟩
      rcases inv_step hp hs with ⟨hip, hmax⟩
      rcases ih p.1 hip (by rw [hmax]; exact hc) with ⟨t, ht, hit, hmax2⟩
      refine ⟨t, ?_, hit, by rw [hmax2, hmax]⟩
      rw [run, hp]
      exact ht

end OpLemmas

section RunLemmas

variable {K V : Type} [DecidableEq K]

/-- Running an appended operation list is running the parts in sequence. -/
theorem run_append (s : LRUCache K V) (l1 l2 : List (Op K V)) :
    run s (l1 ++ l2) = (run s l1).bind (fun t => run t l2) := by
  induction l1 generalizing s with
  | nil => simp [run]
  | cons op rest ih =>
      cases hst : stepO s op with
      | none => simp [run, hst]
      | some p => simp [run, hst, ih]

/-- Filling a cache by `put`s of pairwise-distinct, absent keys that fit
below capacity: each insertion takes the plain front-insertion branch, so the
container accumulates the pairs in reverse order and the index accumulates
the keys in reverse order.  Counters and capacity are untouched. -/
theorem run_puts : ∀ (kvs : List (K × V)) (s : LRUCache K V),
    (keysOf kvs).Nodup →
    (∀ p ∈ kvs, p.1 ∉ s.lookupMap) →
    s.container.length + kvs.length ≤ s.max_size_ →
    run s (putsOf kvs)
      = some { s with
                 container := kvs.reverse ++ s.container,
                 lookupMap := (keysOf kvs).reverse ++ s.lookupMap } := by
  intro kvs
  induction kvs with
  | nil =>
      intro s _ _ _
      rfl
  | cons kv rest ih =>
      intro s hnd habs hlen
      have hk : kv.1 ∉ s.lookupMap := habs kv (List.mem_cons_self _ _)
      have hne : s.container.length ≠ s.max_size_ := by
        simp only [List.length_cons] at hlen
        omega
      have hstep : stepO s (Op.put kv.1 kv.2)
          = some ({ s with
                      container := (kv.1, kv.2) :: s.container,
                      lookupMap := kv.1 :: s.lookupMap }, Out.unit) := by
        rw [stepO, put_insert s kv.1 kv.2 hk hne]
        rfl
      have hndr : (keysOf rest).Nodup :=
        (List.nodup_cons.mp (by simpa using hnd)).2
      have hhead : kv.1 ∉ keysOf rest :=
        (List.nodup_cons.mp (by simpa using hnd)).1
      have habs' : ∀ p ∈ rest,
          p.1 ∉ (kv.1 :: s.lookupMap : List K) := by
        intro p hp hmem
        rcases List.mem_cons.mp hmem with h1 | h1
        · exact hhead (h1 ▸ mem_keysOf_of_mem hp)
        · exact habs p (List.mem_cons_of_mem _ hp) h1
      have hlen' : ((kv.1, kv.2) :: s.container).length + rest.length
          ≤ s.max_size_ := by
        simp only [List.length_cons] at hlen ⊢
        omega
      have hrun : run s (putsOf (kv :: rest))
          = run { s with
                    container := (kv.1, kv.2) :: s.container,
                    lookupMap := kv.1 :: s.lookupMap } (putsOf rest) := by
        rw [show putsOf (kv :: rest) = Op.put kv.1 kv.2 :: putsOf rest from rfl,
            run, hstep]
      rw [hrun, ih _ hndr habs' hlen']
      simp [List.reverse_cons, List.append_assoc]

end RunLemmas

/-- Claim C5: `get` on a key absent from the cache increments the miss
counter by one and returns the not-found sentinel (`none`, modelling
`end()`), with no other side effect: the container, the index, the capacity,
and the three other counters are unchanged (the result state is the record
update touching only `cache_misses_`). -/
theorem claim_C5 {K V : Type} [DecidableEq K] (s : LRUCache K V) (k : K)
    (h : k ∉ s.lookupMap) :
    s.get k = some ({ s with cache_misses_ := s.cache_misses_ + 1 }, none) :=
  get_miss s k h

/-- Witness for C5 at a concrete input. -/
theorem claim_C5_witness :
    (LRUCache.init Nat Nat 2).get 7
      = some ({ LRUCache.init Nat Nat 2 with cache_misses_ := 1 }, none) :=
  claim_C5 (LRUCache.init Nat Nat 2) 7 (by simp [LRUCache.init])

/-- Claim C4: `get` on a present key increments the hit counter by one,
moves that key's entry (with its stored value unchanged) to the front of the
recency list, leaves the index key list unchanged (the locator update
`lookupMap[key] = container.begin()` does not change the key set), and
returns that entry; the front of the resulting cache is exactly the
`(key, value)` entry. -/
theorem claim_C4 {K V : Type} [DecidableEq K] (s : LRUCache K V) (k : K)
    (v : V) (hInv : Inv s) (hmem : (k, v) ∈ s.container) :
    s.get k = some ({ s with
                        cache_hits_ := s.cache_hits_ + 1,
                        container := (k, v) :: eraseKeyC s.container k },
                    some (k, v))
      ∧ LRUCache.front { s with
                           cache_hits_ := s.cache_hits_ + 1,
                           container := (k, v) :: eraseKeyC s.container k }
          = some (k, v) := by
  obtain ⟨hC, hnd, hm, hlen⟩ := hInv
  exact ⟨get_hit s k v hC hnd hmem, rfl⟩

/-- Witness for C4 at a concrete input. -/
theorem claim_C4_witness :
    (⟨2, [(1, 10), (2, 20)], [1, 2], 0, 0, 0, 0⟩ : LRUCache Nat Nat).get 2
        = some (⟨2, [(2, 20), (1, 10)], [1, 2], 1, 0, 0, 0⟩, some (2, 20))
      ∧ LRUCache.front
          (⟨2, [(2, 20), (1, 10)], [1, 2], 1, 0, 0, 0⟩ : LRUCache Nat Nat)
          = some (2, 20) :=
  claim_C4 (⟨2, [(1, 10), (2, 20)], [1, 2], 0, 0, 0, 0⟩ : LRUCache Nat Nat)
    2 20 ⟨fun k => Iff.rfl, by decide, by decide, by decide⟩ (by decide)

/-- Claim C6: `put` on a present key increments the update counter by one,
removes the old entry and inserts the new `(key, value)` entry at the front,
and never evicts: the index key list, the bounce counter (and the other
counters and the capacity) are unchanged, and the container length is
preserved. -/
theorem claim_C6 {K V : Type} [DecidableEq K] (s : LRUCache K V) (k : K)
    (v0 v : V) (hInv : Inv s) (hmem : (k, v0) ∈ s.container) :
    s.put k v = some { s with
                         update_count_ := s.update_count_ + 1,
                         container := (k, v) :: eraseKeyC s.container k }
      ∧ ((k, v) :: eraseKeyC s.container k).length = s.container.length := by
  obtain ⟨hC, hnd, hm, hlen⟩ := hInv
  refine ⟨put_update s k v0 v hC hnd hmem, ?_⟩
  have h2 : (eraseKeyC s.container k).length + 1 = s.container.length :=
    length_eraseKeyC (mem_keysOf_of_mem hmem)
  simp only [List.length_cons]
  omega

/-- Witness for C6 at a concrete input. -/
theorem claim_C6_witness :
    (⟨2, [(1, 10), (2, 20)], [1, 2], 0, 0, 0, 0⟩ : LRUCache Nat Nat).put 2 99
        = some ⟨2, [(2, 99), (1, 10)], [1, 2], 0, 0, 1, 0⟩
      ∧ (((2 : Nat), (99 : Nat)) ::
          eraseKeyC [((1 : Nat), (10 : Nat)), (2, 20)] 2).length
          = ([((1 : Nat), (10 : Nat)), (2, 20)] : List (Nat × Nat)).length :=
  claim_C6 (⟨2, [(1, 10), (2, 20)], [1, 2], 0, 0, 0, 0⟩ : LRUCache Nat Nat)
    2 20 99 ⟨fun k => Iff.rfl, by decide, by decide, by decide⟩ (by decide)

/-- Claim C7: `peek` and `is_cached` have no side effects: a run consisting
solely of `peek` and `is_cached` operations returns the starting state
unchanged — hence front, back, the whole MRU-to-LRU order, the size, the
index, and all four counters are identical before and after. -/
theorem claim_C7 {K V : Type} [DecidableEq K] (s : LRUCache K V)
    (ops : List (Op K V))
    (h : ∀ op ∈ ops, (∃ k, op = Op.peek k) ∨ (∃ k, op = Op.is_cached k)) :
    run s ops = some s := by
  induction ops with
  | nil => rfl
  | cons op rest ih =>
      have htail : ∀ op ∈ rest,
          (∃ k, op = Op.peek k) ∨ (∃ k, op = Op.is_cached k) :=
        fun o ho => h o (List.mem_cons_of_mem _ ho)
      rcases h op (List.mem_cons_self _ _) with ⟨k, hk⟩ | ⟨k, hk⟩ <;> subst hk
      · show run s rest = some s
        exact ih htail
      · show run s rest = some s
        exact ih htail

/-- Witness for C7 at a concrete input. -/
theorem claim_C7_witness :
    run (⟨2, [(1, 10)], [1], 3, 4, 5, 6⟩ : LRUCache Nat Nat)
        [Op.peek 1, Op.is_cached 9, Op.peek 5]
      = some ⟨2, [(1, 10)], [1], 3, 4, 5, 6⟩ := by
  refine claim_C7 _ _ ?_
  intro op hop
  rcases List.mem_cons.mp hop with h | hop
  · exact Or.inl ⟨1, h⟩
  rcases List.mem_cons.mp hop with h | hop
  · exact Or.inr ⟨9, h⟩
  rcases List.mem_cons.mp hop with h | hop
  · exact Or.inl ⟨5, h⟩
  · simp at hop

/-- Claim C8 (code bug): at capacity `0`, `put` on an absent key does NOT
leave the cache empty as the spec demands — the code first tests
`container.size() == max_size()` (true: `0 == 0`) and then calls
`container.back()` and `container.pop_back()` on the EMPTY list, which is
undefined behaviour in C++ (modelled as `none`); eviction happens before
insertion, so nothing ever removes the just-inserted entry.  This theorem
evaluates the code at the failing input `LRUCache(0); put(1, 1)`. -/
theorem claim_C8 : (LRUCache.init Nat Nat 0).put 1 1 = none := rfl

/-- Claim C9: after `clear()` the cache is empty — `size()` is `0` and
`is_cached` is false for every key — while the capacity and all four
statistics counters keep their prior values. -/
theorem claim_C9 {K V : Type} [DecidableEq K] (s : LRUCache K V) :
    s.clear.size = 0
      ∧ (∀ k, s.clear.is_cached k = false)
      ∧ s.clear.max_size_ = s.max_size_
      ∧ s.clear.cache_hits_ = s.cache_hits_
      ∧ s.clear.cache_misses_ = s.cache_misses_
      ∧ s.clear.update_count_ = s.update_count_
      ∧ s.clear.bounce_count_ = s.bounce_count_ :=
  ⟨rfl, fun _ => rfl, rfl, rfl, rfl, rfl, rfl⟩

/-- Claim C2, amended: for every capacity AT LEAST 1 (the original claim
includes capacity 0, refuted by `claim_C2_cex`) and every operation
sequence, every operation completes and afterwards the container length is
at most the capacity. -/
theorem claim_C2 {K V : Type} [DecidableEq K] (cap : Nat) (hcap : 1 ≤ cap)
    (ops : List (Op K V)) :
    ∃ t, run (LRUCache.init K V cap) ops = some t
      ∧ t.size ≤ t.max_size ∧ t.max_size = cap := by
  rcases run_some ops (LRUCache.init K V cap) (inv_init K V cap) hcap
    with ⟨t, h1, h2, h3⟩
  exact ⟨t, h1, h2.2.2.2, h3⟩

/-- Witness for the amended C2 at a concrete input. -/
theorem claim_C2_witness :
    ∃ t, run (LRUCache.init Nat Nat 1) [Op.put 1 1, Op.put 2 2] = some t
      ∧ t.size ≤ t.max_size ∧ t.max_size = 1 :=
  claim_C2 1 (by decide) [Op.put 1 1, Op.put 2 2]

/-- Counterexample to C2 as stated: at capacity 0 (which the claim
explicitly includes) the very first `put` does not complete with the bound
satisfied — the code reaches `back()`/`pop_back()` on the empty list
(undefined behaviour, modelled `none`). -/
theorem claim_C2_cex :
    ¬ ∃ t, run (LRUCache.init Nat Nat 0) [Op.put 1 1] = some t
        ∧ t.size ≤ t.max_size := by
  rintro ⟨t, h, -⟩
  rw [show run (LRUCache.init Nat Nat 0) [Op.put 1 1] = none from rfl] at h
  cases h

/-- Claim C3: after every defined run of public operations from a freshly
constructed cache, the index and the recency list are mutually consistent —
the index key set equals the container key set (no orphaned index entries, no
untracked list entries) — and each key appears at most once in the recency
list. -/
theorem claim_C3 {K V : Type} [DecidableEq K] (cap : Nat)
    (ops : List (Op K V)) (t : LRUCache K V)
    (h : run (LRUCache.init K V cap) ops = some t) :
    (∀ k, k ∈ t.lookupMap ↔ k ∈ keysOf t.container)
      ∧ (keysOf t.container).Nodup := by
  rcases run_inv ops (LRUCache.init K V cap) t h (inv_init K V cap)
    with ⟨⟨hC, hnd, _, _⟩, _⟩
  exact ⟨hC, hnd⟩

/-- Witness for C3 at a concrete input. -/
theorem claim_C3_witness :
    (∀ k, k ∈ (⟨2, [(1, 10)], [1], 1, 0, 0, 0⟩ : LRUCache Nat Nat).lookupMap
        ↔ k ∈ keysOf (⟨2, [(1, 10)], [1], 1, 0, 0, 0⟩ :
            LRUCache Nat Nat).container)
      ∧ (keysOf (⟨2, [(1, 10)], [1], 1, 0, 0, 0⟩ :
          LRUCache Nat Nat).container).Nodup :=
  claim_C3 2 [Op.put 1 10, Op.get 1]
    (⟨2, [(1, 10)], [1], 1, 0, 0, 0⟩ : LRUCache Nat Nat) rfl

/-- Claim C1: with capacity `N ≥ 1` (here: the nonempty list `hd :: tl` of
`N` insertions with pairwise-distinct keys), `put` of the `N` distinct absent
keys followed by `put` of one more absent key evicts exactly the
least-recently-used entry `hd` — the first-inserted, never-re-accessed one at
the back of the list: the final state shows `hd` removed from both the
container and the index, the bounce counter at `1` (incremented once from
`0`), the new entry at the front; `hd`'s key is absent from the final index
and every other inserted entry is still present. -/
theorem claim_C1 {K V : Type} [DecidableEq K] (N : Nat) (hd : K × V)
    (tl : List (K × V)) (k' : K) (v' : V)
    (hlen : (hd :: tl).length = N)
    (hnd : (keysOf (hd :: tl)).Nodup)
    (hk' : k' ∉ keysOf (hd :: tl)) :
    run (LRUCache.init K V N) (putsOf (hd :: tl) ++ [Op.put k' v'])
        = some { max_size_ := N,
                 container := (k', v') :: tl.reverse,
                 lookupMap := k' :: (keysOf tl).reverse,
                 cache_hits_ := 0, cache_misses_ := 0, update_count_ := 0,
                 bounce_count_ := 1 }
      ∧ hd.1 ∉ (k' :: (keysOf tl).reverse : List K)
      ∧ ∀ p ∈ tl, p ∈ ((k', v') :: tl.reverse : List (K × V)) := by
  have hinit : ∀ p ∈ (hd :: tl), p.1 ∉ (LRUCache.init K V N).lookupMap := by
    intro p _ hmem
    simp [LRUCache.init] at hmem
  have hfill := run_puts (hd :: tl) (LRUCache.init K V N) hnd hinit
    (by simp only [LRUCache.init, List.length_nil]; omega)
  have hfill2 : run (LRUCache.init K V N) (putsOf (hd :: tl))
      = some (⟨N, (hd :: tl).reverse, (keysOf (hd :: tl)).reverse,
          0, 0, 0, 0⟩ : LRUCache K V) := by
    rw [hfill]
    simp [LRUCache.init]
  have hndhd : hd.1 ∉ keysOf tl :=
    (List.nodup_cons.mp (by simpa using hnd)).1
  have hk1 : k' ∉ ((keysOf (hd :: tl)).reverse : List K) := fun hmem =>
    hk' (List.mem_reverse.mp hmem)
  have hfull : ((hd :: tl).reverse : List (K × V)).length = N := by
    simpa using hlen
  have hbk : backE ((hd :: tl).reverse) = some hd := by
    rw [List.reverse_cons]
    exact backE_concat _ _
  have hpop : popBack ((hd :: tl).reverse) = tl.reverse := by
    rw [List.reverse_cons]
    exact popBack_concat _ _
  have her : eraseKeyL ((keysOf (hd :: tl)).reverse) hd.1
      = (keysOf tl).reverse := by
    rw [keysOf_cons, List.reverse_cons]
    exact eraseKeyL_concat (by simpa using hndhd)
  have hne : hd.1 ≠ k' := by
    intro he
    exact hk' (by rw [keysOf_cons, ← he]; exact List.mem_cons_self _ _)
  refine ⟨?_, ?_, ?_⟩
  · rw [run_append, hfill2]
    show run (⟨N, (hd :: tl).reverse, (keysOf (hd :: tl)).reverse,
        0, 0, 0, 0⟩ : LRUCache K V) [Op.put k' v'] = _
    rw [run, stepO,
        put_evict (⟨N, (hd :: tl).reverse, (keysOf (hd :: tl)).reverse,
          0, 0, 0, 0⟩ : LRUCache K V) k' v' hd hk1 hfull hbk]
    have hpop' : popBack (tl.reverse ++ [hd]) = tl.reverse :=
      popBack_concat _ _
    have her' : eraseKeyL ((keysOf tl).reverse ++ [hd.1]) hd.1
        = (keysOf tl).reverse :=
      eraseKeyL_concat (by simpa using hndhd)
    simp [run, hpop, her, hpop', her']
  · intro hmem
    rcases List.mem_cons.mp hmem with h2 | h2
    · exact hne h2
    · exact hndhd (by simpa using h2)
  · intro p hp
    exact List.mem_cons_of_mem _ (List.mem_reverse.mpr hp)

/-- Witness for C1 at a concrete input: capacity 2, insert keys 0 and 1,
then insert key 2; key 0 is evicted. -/
theorem claim_C1_witness :
    run (LRUCache.init Nat Nat 2)
        (putsOf [((0 : Nat), (10 : Nat)), (1, 11)] ++ [Op.put 2 12])
        = some { max_size_ := 2,
                 container := ((2 : Nat), (12 : Nat)) ::
                   ([((1 : Nat), (11 : Nat))] : List (Nat × Nat)).reverse,
                 lookupMap := (2 : Nat) ::
                   (keysOf [((1 : Nat), (11 : Nat))]).reverse,
                 cache_hits_ := 0, cache_misses_ := 0, update_count_ := 0,
                 bounce_count_ := 1 }
      ∧ ((0 : Nat), (10 : Nat)).1
          ∉ ((2 : Nat) :: (keysOf [((1 : Nat), (11 : Nat))]).reverse : List Nat)
      ∧ ∀ p ∈ [((1 : Nat), (11 : Nat))],
          p ∈ (((2 : Nat), (12 : Nat)) ::
            ([((1 : Nat), (11 : Nat))] : List (Nat × Nat)).reverse) :=
  claim_C1 2 (0, 10) [(1, 11)] 2 12 (by decide) (by decide) (by decide)

/-- One public operation commutes with the counter-erasing projection: the
`src/unnamed/part_000` class and the `src/LRUCache.h` class take the same
branches and produce the same container, index, and observable result. -/
theorem stepO0_proj {K V : Type} [DecidableEq K] (s : LRUCache K V)
    (op : Op K V) :
    stepO0 (proj s) op = (stepO s op).map (fun p => (proj p.1, p.2)) := by
  cases op with
  | get k =>
      simp only [stepO, stepO0, LRUCache.get, LRUCache0.get, proj]
      cases hc : containsKey s.lookupMap k with
      | false => simp [hc]
      | true =>
          simp only [hc, if_true]
          cases hf : findEntry s.container k with
          | none => simp
          | some e => simp
  | put k v =>
      simp only [stepO, stepO0, LRUCache.put, LRUCache0.put, proj]
      cases hc : containsKey s.lookupMap k with
      | true =>
          simp only [hc, if_true]
          cases hf : findEntry s.container k with
          | none => simp
          | some e => simp
      | false =>
          simp only [hc, Bool.false_eq_true, if_false]
          by_cases hfull : s.container.length = s.max_size_
          · simp only [hfull, if_true]
            cases hbk : backE s.container with
            | none => simp
            | some bk => simp
          · simp [hfull]
  | peek k => rfl
  | is_cached k => rfl
  | clear => rfl

/-- Runs commute with the counter-erasing projection, including every
observable result along the way. -/
theorem runOuts0_proj {K V : Type} [DecidableEq K] :
    ∀ (ops : List (Op K V)) (s : LRUCache K V),
    runOuts0 (proj s) ops = (runOuts s ops).map (fun p => (proj p.1, p.2)) := by
  intro ops
  induction ops with
  | nil => intro s; rfl
  | cons op rest ih =>
      intro s
      rw [runOuts0, runOuts, stepO0_proj s op]
      cases hst : stepO s op with
      | none => rfl
      | some p =>
          simp only [Option.map_some']
          rw [ih p.1]
          cases runOuts p.1 rest <;> rfl

/-- Claim C10: the two source variants are behaviourally equivalent on the
counter-free projection — for every capacity and operation sequence, the
`src/unnamed/part_000` class produces exactly the projected state (same
container contents and order, same index) and the same observable result for
every single operation as the `src/LRUCache.h` class. -/
theorem claim_C10 {K V : Type} [DecidableEq K] (cap : Nat)
    (ops : List (Op K V)) :
    runOuts0 (LRUCache0.init K V cap) ops
      = (runOuts (LRUCache.init K V cap) ops).map (fun p => (proj p.1, p.2)) := by
  have h : LRUCache0.init K V cap = proj (LRUCache.init K V cap) := rfl
  rw [h, runOuts0_proj]

end LRUSpec
